import Mathlib

/-!
Verification of the content-summarizer application.

The repository ships one source file, `streamlit_app.py` (the Streamlit
caller: input validation, model loading, statistics rendering).  The core
`summarizer.py` module (class `TextSummarizer` with its `summarize`
pipeline) is imported by that file but is not part of the available
sources, so the pipeline below is modelled from the design document
(chunker, chunk summarizer, recursive aggregator, length-tier mapper,
orchestrator); the caller-side definitions (`load_summarizer`, `mainStep`)
are translated directly from `streamlit_app.py`.

Text is modelled as `List Char`; the model is an injected function from
generation bounds and a chunk to either an error or an output chunk.
Every pipeline function additionally returns the ordered trace of chunk
inputs passed to the model, so that "number of inference calls" claims
are statements about that trace.
-/

deriving instance DecidableEq for Except

namespace Summarizer

theorem length_dropWhile_le {α : Type} (p : α → Bool) (l : List α) :
    (l.dropWhile p).length ≤ l.length := by
  induction l with
  | nil => simp [List.dropWhile]
  | cons a l ih =>
    by_cases h : p a
    · simp only [List.dropWhile_cons, h, if_true]
      exact Nat.le_trans ih (Nat.le_succ _)
    · simp [List.dropWhile_cons, h]

/-- Whitespace test used by trimming and word splitting. -/
def isWs (c : Char) : Bool :=
  c == ' ' || c == '\t' || c == '\n' || c == '\r'

/-- Strip leading and trailing whitespace, as Python `str.strip()` does. -/
def trim (l : List Char) : List Char :=
  ((l.dropWhile isWs).reverse.dropWhile isWs).reverse

/-- Fuelled worker for `words`; the fuel only bounds the recursion depth
and `words` always supplies enough of it. -/
def wordsF : ℕ → List Char → List (List Char)
  | 0, _ => []
  | fuel + 1, l =>
    match l.dropWhile isWs with
    | [] => []
    | c :: cs =>
      (c :: cs.takeWhile (fun d => !isWs d)) :: wordsF fuel (cs.dropWhile (fun d => !isWs d))

/-- Maximal whitespace-free runs of the input, in order. -/
def words (l : List Char) : List (List Char) := wordsF l.length l

theorem wordsF_nil (fuel : ℕ) : wordsF fuel [] = [] := by
  cases fuel with
  | zero => rfl
  | succ fuel => rfl

theorem wordsF_succ_nil (fuel : ℕ) (l : List Char) (h : l.dropWhile isWs = []) :
    wordsF (fuel + 1) l = [] := by
  rw [wordsF, h]

theorem wordsF_succ_cons (fuel : ℕ) (l : List Char) (c : Char) (cs : List Char)
    (h : l.dropWhile isWs = c :: cs) :
    wordsF (fuel + 1) l = (c :: cs.takeWhile (fun d => !isWs d)) ::
      wordsF fuel (cs.dropWhile (fun d => !isWs d)) := by
  rw [wordsF, h]

theorem dropWhile_cons_length {α : Type} (p : α → Bool) (l : List α) (c : α) (cs : List α)
    (h : l.dropWhile p = c :: cs) : cs.length < l.length := by
  have h1 : (l.dropWhile p).length ≤ l.length := length_dropWhile_le p l
  rw [h] at h1
  simp at h1
  omega

theorem wordsF_fuel (fuel1 : ℕ) : ∀ (fuel2 : ℕ) (l : List Char),
    l.length ≤ fuel1 → l.length ≤ fuel2 → wordsF fuel1 l = wordsF fuel2 l := by
  induction fuel1 with
  | zero =>
    intro fuel2 l h1 h2
    have : l = [] := List.length_eq_zero.mp (Nat.le_zero.mp h1)
    subst this
    rw [wordsF_nil, wordsF_nil]
  | succ fuel1 ih =>
    intro fuel2 l h1 h2
    cases fuel2 with
    | zero =>
      have : l = [] := List.length_eq_zero.mp (Nat.le_zero.mp h2)
      subst this
      rw [wordsF_nil, wordsF_nil]
    | succ fuel2 =>
      rcases hd : l.dropWhile isWs with _ | ⟨c, cs⟩
      · rw [wordsF_succ_nil fuel1 l hd, wordsF_succ_nil fuel2 l hd]
      · rw [wordsF_succ_cons fuel1 l c cs hd, wordsF_succ_cons fuel2 l c cs hd]
        have hcs : cs.length < l.length := dropWhile_cons_length isWs l c cs hd
        have hdw : (cs.dropWhile (fun d => !isWs d)).length ≤ cs.length :=
          length_dropWhile_le _ cs
        rw [ih fuel2 (cs.dropWhile (fun d => !isWs d)) (by omega) (by omega)]

/-- Modelled from the spec: the Chunker's hard-split fallback, cutting a
single oversized unit into consecutive pieces of at most `m` characters. -/
def hardChunks (m : ℕ) : List Char → List (List Char)
  | [] => []
  | c :: cs => (c :: cs.take (m - 1)) :: hardChunks m (cs.drop (m - 1))
termination_by l => l.length
decreasing_by
  have := cs.length_drop (m - 1)
  simp
  omega

/-- Modelled from the spec: greedy packing of the Chunker, accumulating
whole units into a chunk while it stays within `m` characters and falling
back to `hardChunks` when a single unit exceeds `m`. -/
def pack (m : ℕ) : List (List Char) → List Char → List (List Char)
  | [], acc => if acc.isEmpty then [] else [acc]
  | u :: us, acc =>
    if acc.length + u.length ≤ m then pack m us (acc ++ u)
    else if acc.isEmpty then hardChunks m u ++ pack m us []
    else acc :: (if u.length ≤ m then pack m us u else hardChunks m u ++ pack m us [])

/-- The normalized form of a document: its content with whitespace removed
(concatenations of chunks are compared up to boundary whitespace, so
normalization collapses whitespace away). -/
def normalize (l : List Char) : List Char := (words l).flatten

/-- Modelled from the spec: `split(text, maxChunkSize)` of the Chunker,
which is missing from the sources.  It packs the whitespace-delimited
units of the input into ordered chunks of at most `m` characters. -/
def split (l : List Char) (m : ℕ) : List (List Char) := pack m (words l) []

theorem hardChunks_flatten (m : ℕ) (l : List Char) : (hardChunks m l).flatten = l := by
  induction l using hardChunks.induct m with
  | case1 => simp [hardChunks]
  | case2 c cs ih =>
    simp [hardChunks, ih]

theorem hardChunks_ne_nil (m : ℕ) (l : List Char) :
    ∀ c ∈ hardChunks m l, c ≠ [] := by
  induction l using hardChunks.induct m with
  | case1 => simp [hardChunks]
  | case2 c cs ih =>
    intro x hx
    simp only [hardChunks, List.mem_cons] at hx
    rcases hx with h | h
    · simp [h]
    · exact ih x h

theorem hardChunks_length_le (m : ℕ) (hm : 0 < m) (l : List Char) :
    ∀ c ∈ hardChunks m l, c.length ≤ m := by
  induction l using hardChunks.induct m with
  | case1 => simp [hardChunks]
  | case2 c cs ih =>
    intro x hx
    simp only [hardChunks, List.mem_cons] at hx
    rcases hx with h | h
    · subst h
      simp only [List.length_cons, List.length_take]
      omega
    · exact ih x h

theorem pack_flatten (m : ℕ) (us : List (List Char)) (acc : List Char) :
    (pack m us acc).flatten = acc ++ us.flatten := by
  induction us generalizing acc with
  | nil =>
    rcases acc with _ | ⟨a, acc⟩
    · simp [pack]
    · simp [pack]
  | cons u us ih =>
    simp only [pack]
    by_cases h1 : acc.length + u.length ≤ m
    · rw [if_pos h1, ih]
      simp
    · rw [if_neg h1]
      by_cases h2 : acc.isEmpty
      · rw [if_pos h2]
        have hacc : acc = [] := List.isEmpty_iff.mp h2
        subst hacc
        simp [hardChunks_flatten, ih]
      · rw [if_neg h2]
        by_cases h3 : u.length ≤ m
        · rw [if_pos h3]
          simp [ih]
        · rw [if_neg h3]
          simp [hardChunks_flatten, ih]

theorem pack_ne_nil (m : ℕ) (us : List (List Char)) (acc : List Char) :
    ∀ c ∈ pack m us acc, c ≠ [] := by
  induction us generalizing acc with
  | nil =>
    intro x hx
    rcases acc with _ | ⟨a, acc⟩
    · simp [pack] at hx
    · simp [pack] at hx
      subst hx
      simp
  | cons u us ih =>
    intro x hx
    simp only [pack] at hx
    by_cases h1 : acc.length + u.length ≤ m
    · rw [if_pos h1] at hx
      exact ih (acc ++ u) x hx
    · rw [if_neg h1] at hx
      by_cases h2 : acc.isEmpty
      · rw [if_pos h2, List.mem_append] at hx
        rcases hx with h | h
        · exact hardChunks_ne_nil m u x h
        · exact ih [] x h
      · rw [if_neg h2, List.mem_cons] at hx
        rcases hx with h | h
        · subst h
          exact fun hc => by simp [hc] at h2
        · by_cases h3 : u.length ≤ m
          · rw [if_pos h3] at h
            exact ih u x h
          · rw [if_neg h3, List.mem_append] at h
            rcases h with h | h
            · exact hardChunks_ne_nil m u x h
            · exact ih [] x h

theorem pack_length_le (m : ℕ) (hm : 0 < m) (us : List (List Char)) (acc : List Char)
    (hacc : acc.length ≤ m) : ∀ c ∈ pack m us acc, c.length ≤ m := by
  induction us generalizing acc with
  | nil =>
    intro x hx
    rcases acc with _ | ⟨a, acc⟩
    · simp [pack] at hx
    · simp [pack] at hx
      subst hx
      exact hacc
  | cons u us ih =>
    intro x hx
    simp only [pack] at hx
    by_cases h1 : acc.length + u.length ≤ m
    · refine ih (acc ++ u) ?_ x (by rwa [if_pos h1] at hx)
      simp only [List.length_append]
      omega
    · rw [if_neg h1] at hx
      by_cases h2 : acc.isEmpty
      · rw [if_pos h2, List.mem_append] at hx
        rcases hx with h | h
        · exact hardChunks_length_le m hm u x h
        · exact ih [] (Nat.zero_le m) x h
      · rw [if_neg h2, List.mem_cons] at hx
        rcases hx with h | h
        · subst h
          exact hacc
        · by_cases h3 : u.length ≤ m
          · rw [if_pos h3] at h
            exact ih u h3 x h
          · rw [if_neg h3, List.mem_append] at h
            rcases h with h | h
            · exact hardChunks_length_le m hm u x h
            · exact ih [] (Nat.zero_le m) x h

theorem dropWhile_head_false {α : Type} (p : α → Bool) :
    ∀ (l : List α) (c : α) (cs : List α), l.dropWhile p = c :: cs → p c = false := by
  intro l
  induction l with
  | nil => simp [List.dropWhile]
  | cons a l ih =>
    intro c cs h
    by_cases hp : p a
    · rw [List.dropWhile_cons, if_pos hp] at h
      exact ih c cs h
    · rw [List.dropWhile_cons, if_neg hp] at h
      injection h with e1 e2
      subst e1
      simpa using hp

theorem words_nil_of {l : List Char} (h : l.dropWhile isWs = []) : words l = [] := by
  rw [words]
  cases l with
  | nil => rfl
  | cons x xs => rw [List.length_cons, wordsF, h]

theorem words_cons_of {l : List Char} {c : Char} {cs : List Char}
    (h : l.dropWhile isWs = c :: cs) :
    words l = (c :: cs.takeWhile (fun d => !isWs d)) ::
      words (cs.dropWhile (fun d => !isWs d)) := by
  rw [words, words]
  cases l with
  | nil => simp [List.dropWhile] at h
  | cons x xs =>
    rw [List.length_cons, wordsF_succ_cons xs.length (x :: xs) c cs h]
    have h1 : cs.length < xs.length + 1 := by
      simpa using dropWhile_cons_length isWs (x :: xs) c cs h
    have h2 : (cs.dropWhile (fun d => !isWs d)).length ≤ cs.length :=
      length_dropWhile_le _ cs
    rw [wordsF_fuel xs.length (cs.dropWhile (fun d => !isWs d)).length
      (cs.dropWhile (fun d => !isWs d)) (by omega) (Nat.le_refl _)]

theorem wordsF_ne_nil (fuel : ℕ) :
    ∀ (l : List Char) (w : List Char), w ∈ wordsF fuel l → w ≠ [] := by
  induction fuel with
  | zero =>
    intro l w hw
    simp [wordsF] at hw
  | succ fuel ih =>
    intro l w hw
    rw [wordsF] at hw
    rcases hd : l.dropWhile isWs with _ | ⟨c, cs⟩ <;> rw [hd] at hw
    · simp at hw
    · simp only [List.mem_cons] at hw
      rcases hw with h1 | h1
      · simp [h1]
      · exact ih _ w h1

theorem words_ne_nil (l : List Char) : ∀ w ∈ words l, w ≠ [] :=
  fun w hw => wordsF_ne_nil l.length l w hw

theorem wordsF_flatten (fuel : ℕ) :
    ∀ l : List Char, l.length ≤ fuel →
      (wordsF fuel l).flatten = l.filter (fun c => !isWs c) := by
  induction fuel with
  | zero =>
    intro l hlen
    have : l = [] := List.length_eq_zero.mp (Nat.le_zero.mp hlen)
    subst this
    simp [wordsF]
  | succ fuel ih =>
    intro l hlen
    rcases hd : l.dropWhile isWs with _ | ⟨c, cs⟩
    · have he : wordsF (fuel + 1) l = [] := by rw [wordsF, hd]
      rw [he]
      have hall : ∀ a ∈ l, isWs a = true := List.dropWhile_eq_nil_iff.mp hd
      simp only [List.flatten_nil]
      symm
      rw [List.filter_eq_nil_iff]
      intro a ha
      simp [hall a ha]
    · have he : wordsF (fuel + 1) l = (c :: cs.takeWhile (fun d => !isWs d)) ::
          wordsF fuel (cs.dropWhile (fun d => !isWs d)) := by rw [wordsF, hd]
      rw [he]
      have hcslt : cs.length < l.length := dropWhile_cons_length isWs l c cs hd
      have hdws : (cs.dropWhile (fun d => !isWs d)).length ≤ cs.length :=
        length_dropWhile_le _ cs
      have ih := ih (cs.dropWhile (fun d => !isWs d)) (by omega)
      have h := hd
      have hsplit : l.takeWhile isWs ++ l.dropWhile isWs = l :=
        List.takeWhile_append_dropWhile isWs l
      have hcfalse : isWs c = false := dropWhile_head_false isWs l c cs h
      have hfilter : l.filter (fun d => !isWs d) = (c :: cs).filter (fun d => !isWs d) := by
        conv_lhs => rw [← hsplit]
        rw [List.filter_append, h]
        have : (l.takeWhile isWs).filter (fun d => !isWs d) = [] := by
          rw [List.filter_eq_nil_iff]
          intro a ha
          have := List.mem_takeWhile_imp ha
          simp [this]
        rw [this, List.nil_append]
      rw [hfilter]
      have hcs : cs.takeWhile (fun d => !isWs d) ++ cs.dropWhile (fun d => !isWs d) = cs :=
        List.takeWhile_append_dropWhile (fun d => !isWs d) cs
      have hfcs : cs.filter (fun d => !isWs d) =
          cs.takeWhile (fun d => !isWs d) ++
            (cs.dropWhile (fun d => !isWs d)).filter (fun d => !isWs d) := by
        conv_lhs => rw [← hcs]
        rw [List.filter_append]
        congr 1
        rw [List.filter_eq_self]
        intro a ha
        simpa using List.mem_takeWhile_imp ha
      simp only [List.flatten_cons, List.filter_cons, hcfalse]
      simp only [Bool.not_false, if_true, ih, hfcs]
      simp

theorem words_flatten (l : List Char) :
    (words l).flatten = l.filter (fun c => !isWs c) :=
  wordsF_flatten l.length l (Nat.le_refl _)

theorem normalize_length_le (l : List Char) : (normalize l).length ≤ l.length := by
  rw [normalize, words_flatten]
  exact l.length_filter_le _

theorem trim_nil : trim [] = [] := rfl

theorem trim_length_le (l : List Char) : (trim l).length ≤ l.length := by
  rw [trim]
  rw [List.length_reverse]
  calc ((l.dropWhile isWs).reverse.dropWhile isWs).length
      ≤ (l.dropWhile isWs).reverse.length := length_dropWhile_le _ _
    _ = (l.dropWhile isWs).length := List.length_reverse _
    _ ≤ l.length := length_dropWhile_le _ _

theorem trim_ne_nil_words (l : List Char) (h : trim l ≠ []) : words l ≠ [] := by
  intro hw
  apply h
  have hd : l.dropWhile isWs = [] := by
    by_contra hne
    rcases List.exists_cons_of_ne_nil hne with ⟨c, cs, hc⟩
    rw [words_cons_of hc] at hw
    cases hw
  rw [trim, hd]
  rfl

theorem pack_small (m : ℕ) (us : List (List Char)) :
    ∀ acc : List Char, acc.length + us.flatten.length ≤ m →
      pack m us acc =
        if (acc ++ us.flatten).isEmpty then [] else [acc ++ us.flatten] := by
  induction us with
  | nil =>
    intro acc h
    simp [pack]
  | cons u us ih =>
    intro acc h
    simp only [List.flatten_cons, List.length_append] at h
    have h1 : acc.length + u.length ≤ m := by omega
    rw [pack, if_pos h1, ih (acc ++ u) (by rw [List.length_append]; omega)]
    simp

theorem normalize_ne_nil (l : List Char) (h : trim l ≠ []) : normalize l ≠ [] := by
  have hw : words l ≠ [] := trim_ne_nil_words l h
  rcases List.exists_cons_of_ne_nil hw with ⟨w, ws, hww⟩
  have hwne : w ≠ [] := words_ne_nil l w (by rw [hww]; exact List.mem_cons_self w ws)
  rw [normalize, hww]
  simp [hwne]

theorem split_single (l : List Char) (m : ℕ) (h : trim l ≠ []) (hm : l.length ≤ m) :
    split l m = [normalize l] := by
  have hlen : (words l).flatten.length ≤ m :=
    Nat.le_trans (normalize_length_le l) hm
  rw [split, pack_small m (words l) [] (by simpa using hlen)]
  have hne : ¬ ((words l).flatten.isEmpty = true) := by
    rw [List.isEmpty_iff]
    exact normalize_ne_nil l h
  simp only [List.nil_append]
  rw [if_neg hne]
  rfl

/-- C3: for every input text and every positive chunk size, `split` returns
an ordered list of chunks whose concatenation (whitespace removed on both
sides of the comparison) is the normalized input, with no empty chunk and
no chunk longer than `maxChunkSize`. -/
theorem split_concat_nonempty_bounded (t : List Char) (m : ℕ) (hm : 0 < m) :
    (split t m).flatten = normalize t ∧
      (∀ c ∈ split t m, c ≠ []) ∧
      (∀ c ∈ split t m, c.length ≤ m) := by
  refine ⟨?_, pack_ne_nil m (words t) [], pack_length_le m hm (words t) [] (Nat.zero_le m)⟩
  rw [split, pack_flatten]
  rfl

/-- Witness for C3 at a concrete text and chunk size. -/
theorem split_concat_nonempty_bounded_witness :
    0 < 2 ∧
      ((split [' ', 'a', 'b', ' ', 'c', 'd', 'e'] 2).flatten =
          normalize [' ', 'a', 'b', ' ', 'c', 'd', 'e'] ∧
        (∀ c ∈ split [' ', 'a', 'b', ' ', 'c', 'd', 'e'] 2, c ≠ []) ∧
        (∀ c ∈ split [' ', 'a', 'b', ' ', 'c', 'd', 'e'] 2, c.length ≤ 2)) :=
  ⟨by decide, split_concat_nonempty_bounded [' ', 'a', 'b', ' ', 'c', 'd', 'e'] 2 (by decide)⟩

/-- The coarse user-facing summary-length selector (`streamlit_app.py`
offers exactly the options short, medium, long). -/
inductive Tier : Type
  | short
  | medium
  | long
deriving DecidableEq

/-- Generation bounds for one tier: minimum and maximum output length. -/
structure Bounds : Type where
  minLen : ℕ
  maxLen : ℕ
deriving DecidableEq

/-- Modelled from the spec: the Length-Tier Parameter Mapper `boundsFor`,
missing from the sources.  The exact constants are left open by the design
document ("implementers must choose concrete constants"); these are chosen
so that maxima and minima are strictly increasing across tiers. -/
def boundsFor : Tier → Bounds
  | .short => ⟨20, 60⟩
  | .medium => ⟨60, 150⟩
  | .long => ⟨150, 300⟩

/-- Concatenation of partial summaries in chunk order, separated by a
single space. -/
def joinSp (ps : List (List Char)) : List Char := List.intercalate [' '] ps

/-- Modelled from the spec: the Chunk Summarizer loop, missing from the
sources.  It invokes the injected model once per chunk, in order, stopping
at the first failure; the second component is the trace of chunk inputs
actually passed to the model. -/
def runChunks {ε : Type} (M : Bounds → List Char → Except ε (List Char)) (b : Bounds) :
    List (List Char) → Except ε (List (List Char)) × List (List Char)
  | [] => (.ok [], [])
  | c :: cs =>
    match M b c with
    | .error e => (.error e, [c])
    | .ok p =>
      match runChunks M b cs with
      | (.error e, tr) => (.error e, c :: tr)
      | (.ok ps, tr) => (.ok (p :: ps), c :: tr)

/-- Modelled from the spec: the Recursive Aggregator `reduce`, missing
from the sources.  It concatenates the partial summaries; if the result is
within the tier's maximum it returns it, otherwise it re-chunks,
re-summarizes and recurses, spending one unit of the `maxPasses` budget
per pass and degrading to the current concatenation when the budget is
exhausted.  The successful result carries the number of reduction passes
used (the spec's observable pass counter), and the second component is
the trace of model-call inputs. -/
def reduce {ε : Type} (M : Bounds → List Char → Except ε (List Char)) (b : Bounds) (m : ℕ) :
    ℕ → List (List Char) → Except ε (List Char × ℕ) × List (List Char)
  | 0, ps => (.ok (joinSp ps, 0), [])
  | fuel + 1, ps =>
    if (joinSp ps).length ≤ b.maxLen then (.ok (joinSp ps, 0), [])
    else
      match runChunks M b (split (joinSp ps) m) with
      | (.error e, tr) => (.error e, tr)
      | (.ok qs, tr) =>
        match reduce M b m fuel qs with
        | (.error e, tr2) => (.error e, tr ++ tr2)
        | (.ok (t, k), tr2) => (.ok (t, k + 1), tr ++ tr2)

/-- Errors of the orchestrator: failed input validation, or a model
failure surfaced as-is. -/
inductive SumErr (ε : Type) : Type
  | validation
  | inference (e : ε)
deriving DecidableEq

/-- Modelled from the spec: the Orchestrator `summarize`, missing from the
sources.  It re-validates the input (non-empty and at least 50 characters
after trimming), resolves the tier bounds, chunks the text, summarizes
each chunk, and reduces the partial summaries; a single-chunk input skips
the aggregator entirely and its one partial summary is the final result.
The successful payload is the final text together with the reduction pass
count; the second component is the trace of model-call inputs. -/
def summarize {ε : Type} (M : Bounds → List Char → Except ε (List Char)) (tier : Tier)
    (m fuel : ℕ) (text : List Char) :
    Except (SumErr ε) (List Char × ℕ) × List (List Char) :=
  if text = [] ∨ (trim text).length < 50 then (.error .validation, [])
  else
    match runChunks M (boundsFor tier) (split text m) with
    | (.error e, tr) => (.error (.inference e), tr)
    | (.ok ps, tr) =>
      match ps with
      | [p] => (.ok (p, 0), tr)
      | ps' =>
        match reduce M (boundsFor tier) m fuel ps' with
        | (.error e, tr2) => (.error (.inference e), tr ++ tr2)
        | (.ok (t, k), tr2) => (.ok (t, k), tr ++ tr2)

/-- Display statistics assembled by the caller (`streamlit_app.py` lines
172-186): original length, summary length, compression percentage, and
elapsed time. -/
structure Stats : Type where
  origLen : ℕ
  sumLen : ℕ
  compression : ℚ
  elapsed : ℕ
deriving DecidableEq

/-- Outcome of one click of the Generate Summary button in `main`. -/
inductive MainOut (ε : Type) : Type
  | tooShort
  | success (summary : List Char) (stats : Stats)
  | failure (e : SumErr ε)
deriving DecidableEq

/-- Rounding to one decimal place, modelling Python `round(x, 1)`. -/
def roundTo1 (q : ℚ) : ℚ := (round (10 * q) : ℤ) / 10

/-- The result-producing branch of `main` in `streamlit_app.py` (lines
138-202): reject input that is empty or under 50 characters after
stripping; otherwise call `summarize` around two clock samples taken by
the caller and render either the summary with its statistics (original
length, summary length, compression percentage computed from the two
strings, elapsed time) or the error. -/
def mainStep {ε : Type} (M : Bounds → List Char → Except ε (List Char)) (tier : Tier)
    (m fuel : ℕ) (clock : ℕ × ℕ) (text : List Char) : MainOut ε :=
  if text = [] ∨ (trim text).length < 50 then .tooShort
  else
    match summarize M tier m fuel text with
    | (.ok (s, _), _) =>
      .success s
        ⟨text.length, s.length,
          roundTo1 ((1 - (s.length : ℚ) / (text.length : ℚ)) * 100),
          clock.2 - clock.1⟩
    | (.error e, _) => .failure e

/-- The model object held in Streamlit session state; its identity is
modelled by a numeric id. -/
structure TextSummarizer : Type where
  modelId : ℕ
deriving DecidableEq

/-- The instance built by the `TextSummarizer()` constructor. -/
def TextSummarizer.fresh : TextSummarizer := ⟨0⟩

/-- `load_summarizer` from `streamlit_app.py` (lines 21-26): if the
session-state slot is `None`, construct the model and store it; return
the stored instance together with the updated slot. -/
def load_summarizer : Option TextSummarizer → TextSummarizer × Option TextSummarizer
  | none => (TextSummarizer.fresh, some TextSummarizer.fresh)
  | some s => (s, some s)

/-- The session-state slot after `n` calls to `load_summarizer`, starting
from the initial `None` of lines 17-19. -/
def stateAfter : ℕ → Option TextSummarizer
  | 0 => none
  | n + 1 => (load_summarizer (stateAfter n)).2

/-- A valid input (at least 50 characters after trimming) never trips the
caller-side or orchestrator-side rejection guard. -/
theorem not_guard_of_valid {text : List Char} (hv : 50 ≤ (trim text).length) :
    ¬ (text = [] ∨ (trim text).length < 50) := by
  rintro (rfl | hlt)
  · rw [trim_nil] at hv
    exact absurd hv (by decide)
  · omega

/-- C1: input that is empty or shorter than 50 characters after trimming
is rejected before any model inference call: the orchestrator fails with
the validation error and an empty model-call trace, and the caller shows
the too-short message instead of producing a summary. -/
theorem validation_rejects {ε : Type} (M : Bounds → List Char → Except ε (List Char))
    (tier : Tier) (m fuel : ℕ) (clock : ℕ × ℕ) (text : List Char)
    (h : text = [] ∨ (trim text).length < 50) :
    summarize M tier m fuel text = (.error .validation, []) ∧
      mainStep M tier m fuel clock text = .tooShort := by
  constructor
  · rw [summarize, if_pos h]
  · rw [mainStep, if_pos h]

/-- Sample text: sixty identical letters. -/
def tSample : List Char := List.replicate 60 'a'

/-- Sample model that truncates each chunk to ten characters. -/
def mOk : Bounds → List Char → Except Unit (List Char) :=
  fun _ c => .ok (c.take 10)

/-- Witness for C1 on the 40-character scenario of the design document. -/
theorem validation_rejects_witness :
    (List.replicate 40 'a' = [] ∨ (trim (List.replicate 40 'a')).length < 50) ∧
      (summarize mOk Tier.medium 100 3 (List.replicate 40 'a') = (.error .validation, []) ∧
        mainStep mOk Tier.medium 100 3 (0, 1) (List.replicate 40 'a') = .tooShort) :=
  ⟨by decide,
    validation_rejects mOk Tier.medium 100 3 (0, 1) (List.replicate 40 'a') (by decide)⟩

theorem runChunks_single {ε : Type} (M : Bounds → List Char → Except ε (List Char))
    (b : Bounds) (c p : List Char) (hok : M b c = .ok p) :
    runChunks M b [c] = (.ok [p], [c]) := by
  simp [runChunks, hok]

/-- A valid input that fits a single chunk makes the orchestrator call the
model exactly once, on the normalized text, and return that call's output
directly with zero reduction passes. -/
theorem summarize_one_chunk {ε : Type} (M : Bounds → List Char → Except ε (List Char))
    (tier : Tier) (m fuel : ℕ) (text p : List Char)
    (hv : 50 ≤ (trim text).length) (hm : text.length ≤ m)
    (hok : M (boundsFor tier) (normalize text) = .ok p) :
    summarize M tier m fuel text = (.ok (p, 0), [normalize text]) := by
  have htr : trim text ≠ [] := by
    intro h0
    rw [h0] at hv
    exact absurd hv (by decide)
  rw [summarize, if_neg (not_guard_of_valid hv), split_single text m htr hm,
    runChunks_single M (boundsFor tier) (normalize text) p hok]

/-- C2: for every valid input no larger than the chunk capacity,
`summarize` performs exactly one model inference call (the trace has
length one) and returns that call's direct output as the final summary. -/
theorem summarize_single_call {ε : Type} (M : Bounds → List Char → Except ε (List Char))
    (tier : Tier) (m fuel : ℕ) (text p : List Char)
    (hv : 50 ≤ (trim text).length) (hm : text.length ≤ m)
    (hok : M (boundsFor tier) (normalize text) = .ok p) :
    summarize M tier m fuel text = (.ok (p, 0), [normalize text]) ∧
      (summarize M tier m fuel text).2.length = 1 := by
  have h := summarize_one_chunk M tier m fuel text p hv hm hok
  refine ⟨h, ?_⟩
  rw [h]
  rfl

/-- Witness for C2 on a one-chunk input. -/
theorem summarize_single_call_witness :
    (50 ≤ (trim tSample).length) ∧ (tSample.length ≤ 100) ∧
      (mOk (boundsFor Tier.medium) (normalize tSample) = .ok (List.replicate 10 'a')) ∧
      (summarize mOk Tier.medium 100 3 tSample =
          (.ok (List.replicate 10 'a', 0), [normalize tSample]) ∧
        (summarize mOk Tier.medium 100 3 tSample).2.length = 1) :=
  ⟨by decide, by decide, by simp only [mOk, Except.ok.injEq]; decide,
    summarize_single_call mOk Tier.medium 100 3 tSample (List.replicate 10 'a')
      (by decide) (by decide) (by simp only [mOk, Except.ok.injEq]; decide)⟩

/-- C4: the aggregator's pass counter never exceeds the configured
ceiling, for every model (in particular one that returns its input
unchanged, producing no shrinkage), and an exhausted budget returns the
current concatenation of partial summaries as a non-error result. -/
theorem reduce_within_ceiling {ε : Type} (M : Bounds → List Char → Except ε (List Char))
    (b : Bounds) (m fuel : ℕ) (ps : List (List Char)) :
    reduce M b m 0 ps = (.ok (joinSp ps, 0), []) ∧
      ∀ t k tr, reduce M b m fuel ps = (.ok (t, k), tr) → k ≤ fuel := by
  refine ⟨rfl, ?_⟩
  induction fuel generalizing ps with
  | zero =>
    intro t k tr h
    rw [reduce] at h
    simp only [Prod.mk.injEq, Except.ok.injEq] at h
    obtain ⟨⟨h1, h2⟩, h3⟩ := h
    omega
  | succ fuel ih =>
    intro t k tr h
    rw [reduce] at h
    split at h
    · simp only [Prod.mk.injEq, Except.ok.injEq] at h
      obtain ⟨⟨h1, h2⟩, h3⟩ := h
      omega
    · split at h
      · simp at h
      · split at h
        · simp at h
        · rename_i qs tr1 heq1 t' k' tr2 heq2
          simp only [Prod.mk.injEq, Except.ok.injEq] at h
          obtain ⟨⟨h1, h2⟩, h3⟩ := h
          have hk := ih _ t' k' tr2 heq2
          omega

/-- Identity model: returns every chunk unchanged, so nothing shrinks. -/
def mId : Bounds → List Char → Except Unit (List Char) :=
  fun _ c => .ok c

/-- Sample list of two partial summaries whose concatenation never fits
the short tier's maximum. -/
def psSample : List (List Char) := [List.replicate 60 'a', List.replicate 60 'b']

/-- The stalled concatenation reached by the identity model. -/
def nSample : List Char := List.replicate 60 'a' ++ List.replicate 60 'b'

set_option maxRecDepth 4000 in
/-- Witness for C4: the no-shrinkage scenario runs exactly three passes on
a budget of three and still returns the concatenation successfully. -/
theorem reduce_within_ceiling_witness :
    reduce mId (boundsFor Tier.short) 200 3 psSample =
        (.ok (nSample, 3), [nSample, nSample, nSample]) ∧ 3 ≤ 3 := by
  have hrun : reduce mId (boundsFor Tier.short) 200 3 psSample =
      (.ok (nSample, 3), [nSample, nSample, nSample]) := by decide
  exact ⟨hrun,
    (reduce_within_ceiling mId (boundsFor Tier.short) 200 3 psSample).2
      nSample 3 [nSample, nSample, nSample] hrun⟩

/-- When the chunk-summarizing loop fails, its trace is the successful
calls followed by exactly the one failing call, whose error is returned
unchanged; no call is made after the failure. -/
theorem runChunks_error {ε : Type} (M : Bounds → List Char → Except ε (List Char))
    (b : Bounds) :
    ∀ (cs : List (List Char)) (e : ε) (tr : List (List Char)),
      runChunks M b cs = (.error e, tr) →
      ∃ pre c, tr = pre ++ [c] ∧ M b c = .error e ∧
        ∀ x ∈ pre, ∃ p, M b x = .ok p := by
  intro cs
  induction cs with
  | nil =>
    intro e tr h
    simp [runChunks] at h
  | cons c cs ih =>
    intro e tr h
    rw [runChunks] at h
    cases hM : M b c with
    | error e1 =>
      rw [hM] at h
      simp at h
      obtain ⟨he, htr⟩ := h
      refine ⟨[], c, by simp [htr], by rw [hM, he], by simp⟩
    | ok p =>
      rw [hM] at h
      rcases hrc : runChunks M b cs with ⟨r, tr1⟩
      rw [hrc] at h
      cases r with
      | error e1 =>
        simp at h
        obtain ⟨he, htr⟩ := h
        obtain ⟨pre, cl, htr1, hMc, hpre⟩ := ih e1 tr1 hrc
        refine ⟨c :: pre, cl, ?_, by rw [hMc, he], ?_⟩
        · rw [← htr, htr1]
          rfl
        · intro x hx
          rcases List.mem_cons.mp hx with hx | hx
          · exact ⟨p, by rw [hx, hM]⟩
          · exact hpre x hx
      | ok ps =>
        simp at h

/-- A successful chunk-summarizing loop made only successful calls. -/
theorem runChunks_ok {ε : Type} (M : Bounds → List Char → Except ε (List Char))
    (b : Bounds) :
    ∀ (cs : List (List Char)) (ps tr : List (List Char)),
      runChunks M b cs = (.ok ps, tr) → ∀ x ∈ tr, ∃ p, M b x = .ok p := by
  intro cs
  induction cs with
  | nil =>
    intro ps tr h
    rw [runChunks] at h
    simp only [Prod.mk.injEq, Except.ok.injEq] at h
    obtain ⟨h1, h2⟩ := h
    subst h2
    intro x hx
    simp at hx
  | cons c cs ih =>
    intro ps tr h
    rw [runChunks] at h
    cases hM : M b c with
    | error e1 =>
      rw [hM] at h
      simp at h
    | ok p =>
      rw [hM] at h
      rcases hrc : runChunks M b cs with ⟨r, tr1⟩
      rw [hrc] at h
      cases r with
      | error e1 => simp at h
      | ok qs =>
        simp at h
        obtain ⟨hq, htr⟩ := h
        intro x hx
        rw [← htr] at hx
        rcases List.mem_cons.mp hx with hx | hx
        · exact ⟨p, by rw [hx, hM]⟩
        · exact ih qs tr1 hrc x hx

/-- When the aggregator fails, its trace is the successful calls of its
passes followed by exactly the one failing call, whose error is returned
unchanged; no call is made after the failure. -/
theorem reduce_error {ε : Type} (M : Bounds → List Char → Except ε (List Char))
    (b : Bounds) (m : ℕ) :
    ∀ (fuel : ℕ) (ps : List (List Char)) (e : ε) (tr : List (List Char)),
      reduce M b m fuel ps = (.error e, tr) →
      ∃ pre c, tr = pre ++ [c] ∧ M b c = .error e ∧
        ∀ x ∈ pre, ∃ p, M b x = .ok p := by
  intro fuel
  induction fuel with
  | zero =>
    intro ps e tr h
    rw [reduce] at h
    simp at h
  | succ fuel ih =>
    intro ps e tr h
    rw [reduce] at h
    split at h
    · simp at h
    · split at h
      · rename_i e1 tr1 heq1
        simp at h
        obtain ⟨he, htr⟩ := h
        rw [← he, ← htr]
        exact runChunks_error M b _ e1 tr1 heq1
      · rename_i qs tr1 heq1
        split at h
        · rename_i e2 tr2 heq2
          simp at h
          obtain ⟨he, htr⟩ := h
          obtain ⟨pre2, cl, htr2, hMc, hpre2⟩ := ih qs e2 tr2 heq2
          have htr1 := runChunks_ok M b _ qs tr1 heq1
          refine ⟨tr1 ++ pre2, cl, ?_, by rw [hMc, he], ?_⟩
          · rw [← htr, htr2, List.append_assoc]
          · intro x hx
            rcases List.mem_append.mp hx with hx | hx
            · exact htr1 x hx
            · exact hpre2 x hx
        · rename_i t k tr2 heq2
          simp at h

/-- A successful aggregation made only successful calls. -/
theorem reduce_ok {ε : Type} (M : Bounds → List Char → Except ε (List Char))
    (b : Bounds) (m : ℕ) :
    ∀ (fuel : ℕ) (ps : List (List Char)) (t : List Char) (k : ℕ)
      (tr : List (List Char)),
      reduce M b m fuel ps = (.ok (t, k), tr) → ∀ x ∈ tr, ∃ p, M b x = .ok p := by
  intro fuel
  induction fuel with
  | zero =>
    intro ps t k tr h
    rw [reduce] at h
    simp only [Prod.mk.injEq, Except.ok.injEq] at h
    obtain ⟨h1, h2⟩ := h
    subst h2
    intro x hx
    simp at hx
  | succ fuel ih =>
    intro ps t k tr h
    rw [reduce] at h
    split at h
    · simp only [Prod.mk.injEq, Except.ok.injEq] at h
      obtain ⟨h1, h2⟩ := h
      subst h2
      intro x hx
      simp at hx
    · split at h
      · rename_i e1 tr1 heq1
        simp at h
      · rename_i qs tr1 heq1
        split at h
        · rename_i e2 tr2 heq2
          simp at h
        · rename_i t2 k2 tr2 heq2
          simp at h
          obtain ⟨⟨ht, hk⟩, htr⟩ := h
          intro x hx
          rw [← htr] at hx
          rcases List.mem_append.mp hx with hx | hx
          · exact runChunks_ok M b _ qs tr1 heq1 x hx
          · exact ih qs t2 k2 tr2 heq2 x hx

/-- When the orchestrator surfaces an inference error, its trace ends at
the one failing call, whose error is surfaced unchanged, after only
successful calls. -/
theorem summarize_error_shape {ε : Type} (M : Bounds → List Char → Except ε (List Char))
    (tier : Tier) (m fuel : ℕ) (text : List Char) :
    ∀ (e : ε) (tr : List (List Char)),
      summarize M tier m fuel text = (.error (.inference e), tr) →
      ∃ pre c, tr = pre ++ [c] ∧ M (boundsFor tier) c = .error e ∧
        ∀ x ∈ pre, ∃ p, M (boundsFor tier) x = .ok p := by
  intro e tr h
  rw [summarize] at h
  split at h
  · simp at h
  · split at h
    · rename_i e1 tr1 heq1
      simp at h
      obtain ⟨he, htr⟩ := h
      rw [← he, ← htr]
      exact runChunks_error M (boundsFor tier) _ e1 tr1 heq1
    · rename_i ps tr1 heq1
      split at h
      · rename_i p
        simp at h
      · rename_i hother
        split at h
        · rename_i e2 tr2 heq2
          simp at h
          obtain ⟨he, htr⟩ := h
          obtain ⟨pre2, cl, htr2, hMc, hpre2⟩ :=
            reduce_error M (boundsFor tier) m fuel ps e2 tr2 heq2
          have htr1 := runChunks_ok M (boundsFor tier) _ ps tr1 heq1
          refine ⟨tr1 ++ pre2, cl, ?_, by rw [hMc, he], ?_⟩
          · rw [← htr, htr2, List.append_assoc]
          · intro x hx
            rcases List.mem_append.mp hx with hx | hx
            · exact htr1 x hx
            · exact hpre2 x hx
        · rename_i t k tr2 heq2
          simp at h

/-- A successful summarization made only successful model calls, so no
failed call is ever hidden behind a partial result. -/
theorem summarize_ok_calls {ε : Type} (M : Bounds → List Char → Except ε (List Char))
    (tier : Tier) (m fuel : ℕ) (text : List Char) :
    ∀ (s : List Char) (k : ℕ) (tr : List (List Char)),
      summarize M tier m fuel text = (.ok (s, k), tr) →
      ∀ x ∈ tr, ∃ p, M (boundsFor tier) x = .ok p := by
  intro s k tr h
  rw [summarize] at h
  split at h
  · simp at h
  · split at h
    · rename_i e1 tr1 heq1
      simp at h
    · rename_i ps tr1 heq1
      split at h
      · rename_i p
        rw [Prod.mk.injEq] at h
        obtain ⟨h1, htr⟩ := h
        intro x hx
        rw [← htr] at hx
        exact runChunks_ok M (boundsFor tier) _ [p] tr1 heq1 x hx
      · rename_i hother
        split at h
        · rename_i e2 tr2 heq2
          simp at h
        · rename_i t k2 tr2 heq2
          simp at h
          obtain ⟨⟨ht, hk⟩, htr⟩ := h
          intro x hx
          rw [← htr] at hx
          rcases List.mem_append.mp hx with hx | hx
          · exact runChunks_ok M (boundsFor tier) _ ps tr1 heq1 x hx
          · exact reduce_ok M (boundsFor tier) m fuel ps t k2 tr2 heq2 x hx

/-- C6: every inference error raised inside `summarize` — on any chunk of
the first pass or of any reduction pass — propagates unchanged to the
immediate caller: the surfaced error is exactly the error of the last
model call in the trace, that failing call is the final call made (no
component retries it and nothing runs after it), the error result carries
no partial summary, a successful result only ever arises from a run whose
model calls all succeeded, and the caller surfaces the same error. -/
theorem error_propagates {ε : Type} (M : Bounds → List Char → Except ε (List Char))
    (tier : Tier) (m fuel : ℕ) (clock : ℕ × ℕ) (text : List Char) :
    (∀ (e : ε) (tr : List (List Char)),
      summarize M tier m fuel text = (.error (.inference e), tr) →
        (∃ pre c, tr = pre ++ [c] ∧ M (boundsFor tier) c = .error e ∧
          ∀ x ∈ pre, ∃ p, M (boundsFor tier) x = .ok p) ∧
        mainStep M tier m fuel clock text = .failure (.inference e)) ∧
      (∀ (s : List Char) (k : ℕ) (tr : List (List Char)),
        summarize M tier m fuel text = (.ok (s, k), tr) →
          ∀ x ∈ tr, ∃ p, M (boundsFor tier) x = .ok p) := by
  refine ⟨?_, summarize_ok_calls M tier m fuel text⟩
  intro e tr h
  refine ⟨summarize_error_shape M tier m fuel text e tr h, ?_⟩
  by_cases hg : text = [] ∨ (trim text).length < 50
  · rw [summarize, if_pos hg] at h
    simp at h
  · rw [mainStep, if_neg hg, h]

/-- A model that fails with error code seven exactly on chunks that start
with the letter b, and truncates other chunks. -/
def mErrAt : Bounds → List Char → Except ℕ (List Char) :=
  fun _ c => if c.head? = some 'b' then .error 7 else .ok (c.take 5)

/-- First chunk of the two-chunk sample text. -/
def chunkA : List Char := List.replicate 80 'a'

/-- Second chunk of the two-chunk sample text; its model call fails. -/
def chunkB : List Char := List.replicate 80 'b'

/-- A two-chunk sample text whose second chunk makes `mErrAt` fail. -/
def tTwo : List Char := List.replicate 80 'a' ++ ' ' :: List.replicate 80 'b'

set_option maxRecDepth 20000 in
/-- Witness for C6: the failure happens on the second model call, after a
successful first call, and is surfaced unchanged with no further calls. -/
theorem error_propagates_witness :
    (summarize mErrAt Tier.medium 100 3 tTwo =
        (.error (.inference 7), [chunkA, chunkB])) ∧
      ((∃ pre c, ([chunkA, chunkB] : List (List Char)) = pre ++ [c] ∧
          mErrAt (boundsFor Tier.medium) c = .error 7 ∧
          ∀ x ∈ pre, ∃ p, mErrAt (boundsFor Tier.medium) x = .ok p) ∧
        mainStep mErrAt Tier.medium 100 3 (0, 1) tTwo = .failure (.inference 7)) :=
  ⟨by decide,
    (error_propagates mErrAt Tier.medium 100 3 (0, 1) tTwo).1 7 [chunkA, chunkB]
      (by decide)⟩

/-- C7: the model instance is created lazily at most once: the first call
constructs and stores it, the session-state slot afterwards always holds
that first instance, and every later call returns it unchanged without
touching any other state. -/
theorem model_singleton (s : TextSummarizer) (n : ℕ) :
    load_summarizer none = (TextSummarizer.fresh, some TextSummarizer.fresh) ∧
      load_summarizer (some s) = (s, some s) ∧
      stateAfter (n + 1) = some TextSummarizer.fresh ∧
      (load_summarizer (stateAfter (n + 1))).1 = TextSummarizer.fresh := by
  have hst : ∀ k : ℕ, stateAfter (k + 1) = some TextSummarizer.fresh := by
    intro k
    induction k with
    | zero => rfl
    | succ k ih =>
      rw [stateAfter, ih]
      rfl
  refine ⟨rfl, rfl, hst n, ?_⟩
  rw [hst n]
  rfl

/-- C8: on a successful run the caller computes the displayed compression
statistic itself, from the lengths of the input and output strings, as the
percentage form of one minus summary length over original length, rounded
to one decimal place; the core result it consumes carries only the text
and the pass count. -/
theorem compression_caller {ε : Type} (M : Bounds → List Char → Except ε (List Char))
    (tier : Tier) (m fuel : ℕ) (clock : ℕ × ℕ) (text s : List Char) (k : ℕ)
    (tr : List (List Char))
    (hok : summarize M tier m fuel text = (.ok (s, k), tr))
    (hv : 50 ≤ (trim text).length) :
    mainStep M tier m fuel clock text =
      .success s
        ⟨text.length, s.length,
          roundTo1 ((1 - (s.length : ℚ) / (text.length : ℚ)) * 100),
          clock.2 - clock.1⟩ := by
  rw [mainStep, if_neg (not_guard_of_valid hv), hok]

set_option maxRecDepth 20000 in
/-- Witness for C8 on a concrete successful run. -/
theorem compression_caller_witness :
    (summarize mOk Tier.medium 100 3 tSample = (.ok (List.replicate 10 'a', 0), [tSample])) ∧
      (50 ≤ (trim tSample).length) ∧
      mainStep mOk Tier.medium 100 3 (2, 5) tSample =
        .success (List.replicate 10 'a')
          ⟨tSample.length, (List.replicate 10 'a').length,
            roundTo1 ((1 - ((List.replicate 10 'a').length : ℚ) / (tSample.length : ℚ)) * 100),
            (2, 5).2 - (2, 5).1⟩ :=
  ⟨by decide, by decide,
    compression_caller mOk Tier.medium 100 3 (2, 5) tSample (List.replicate 10 'a') 0
      [tSample] (by decide) (by decide)⟩

/-- The summary rendered by one caller outcome, if any. -/
def outSummary {ε : Type} : MainOut ε → Option (List Char)
  | .success s _ => some s
  | _ => none

/-- The elapsed-time statistic rendered by one caller outcome, if any. -/
def outElapsed {ε : Type} : MainOut ε → Option ℕ
  | .success _ st => some st.elapsed
  | _ => none

/-- C9 (amended): elapsed time is measured by the caller around its
invocation of `summarize`, as the difference of the caller's own two clock
samples; the summary text rendered does not depend on those samples at
all, because `summarize` neither receives nor returns timing data. -/
theorem elapsed_measured_by_caller {ε : Type} (M : Bounds → List Char → Except ε (List Char))
    (tier : Tier) (m fuel a b a2 b2 : ℕ) (text : List Char) :
    (∀ s st, mainStep M tier m fuel (a, b) text = .success s st → st.elapsed = b - a) ∧
      outSummary (mainStep M tier m fuel (a, b) text) =
        outSummary (mainStep M tier m fuel (a2, b2) text) := by
  constructor
  · intro s st h
    rw [mainStep] at h
    split at h
    · simp at h
    · split at h
      · cases h
        rfl
      · simp at h
  · by_cases hg : text = [] ∨ (trim text).length < 50
    · rw [mainStep, mainStep, if_pos hg, if_pos hg]
    · rw [mainStep, mainStep, if_neg hg, if_neg hg]
      rcases hsum : summarize M tier m fuel text with ⟨r, tr⟩
      cases r with
      | ok v =>
        rcases v with ⟨s, k⟩
        rfl
      | error e => rfl

/-- The statistics record assembled by the sample run with clocks 2, 5. -/
def stWitness : Stats :=
  ⟨tSample.length, (List.replicate 10 'a').length,
    roundTo1 ((1 - ((List.replicate 10 'a').length : ℚ) / (tSample.length : ℚ)) * 100),
    (2, 5).2 - (2, 5).1⟩

set_option maxRecDepth 20000 in
/-- Witness for the amended C9 at concrete clock samples. -/
theorem elapsed_measured_by_caller_witness :
    (mainStep mOk Tier.medium 100 3 (2, 5) tSample =
        .success (List.replicate 10 'a') stWitness) ∧
      stWitness.elapsed = 5 - 2 ∧
      outSummary (mainStep mOk Tier.medium 100 3 (2, 5) tSample) =
        outSummary (mainStep mOk Tier.medium 100 3 (7, 9) tSample) :=
  ⟨by rfl,
    (elapsed_measured_by_caller mOk Tier.medium 100 3 2 5 7 9 tSample).1
      (List.replicate 10 'a') stWitness (by rfl),
    (elapsed_measured_by_caller mOk Tier.medium 100 3 2 5 7 9 tSample).2⟩

/-- C9 counterexample: two runs whose `summarize` invocation and result
are identical (the core returns only the final text and pass count, no
timing metadata) display different elapsed times, which therefore come
from the caller's clock samples and not from `summarize`. -/
theorem elapsed_not_returned_by_core :
    outElapsed (mainStep mOk Tier.medium 100 3 (0, 7) tSample) = some 7 ∧
      outElapsed (mainStep mOk Tier.medium 100 3 (0, 2) tSample) = some 2 ∧
      outSummary (mainStep mOk Tier.medium 100 3 (0, 7) tSample) =
        outSummary (mainStep mOk Tier.medium 100 3 (0, 2) tSample) ∧
      summarize mOk Tier.medium 100 3 tSample =
        (.ok (List.replicate 10 'a', 0), [tSample]) :=
  ⟨by decide, by decide, by decide, by decide⟩

/-- C10: the compression statistic's division is only reached on the
branch where the stripped input has at least 50 characters, so its divisor
(the original length) is positive. -/
theorem divisor_positive {ε : Type} (M : Bounds → List Char → Except ε (List Char))
    (tier : Tier) (m fuel : ℕ) (clock : ℕ × ℕ) (text s : List Char) (st : Stats)
    (h : mainStep M tier m fuel clock text = .success s st) :
    50 ≤ (trim text).length ∧ 0 < text.length := by
  rw [mainStep] at h
  split at h
  · simp at h
  · rename_i hg
    push_neg at hg
    obtain ⟨hne, hlen⟩ := hg
    exact ⟨by omega, List.length_pos.mpr hne⟩

/-- The statistics record assembled by the sample run with clocks 0, 1. -/
def stWitness2 : Stats :=
  ⟨tSample.length, (List.replicate 10 'a').length,
    roundTo1 ((1 - ((List.replicate 10 'a').length : ℚ) / (tSample.length : ℚ)) * 100),
    (0, 1).2 - (0, 1).1⟩

set_option maxRecDepth 20000 in
/-- Witness for C10 on a concrete successful run. -/
theorem divisor_positive_witness :
    (mainStep mOk Tier.long 100 3 (0, 1) tSample =
        .success (List.replicate 10 'a') stWitness2) ∧
      (50 ≤ (trim tSample).length ∧ 0 < tSample.length) :=
  ⟨by rfl,
    divisor_positive mOk Tier.long 100 3 (0, 1) tSample (List.replicate 10 'a')
      stWitness2 (by rfl)⟩

/-- Length of the final summary of a run, zero when the run errors. -/
def outLen {ε : Type} (M : Bounds → List Char → Except ε (List Char)) (tier : Tier)
    (m fuel : ℕ) (text : List Char) : ℕ :=
  match (summarize M tier m fuel text).1 with
  | .ok (s, _) => s.length
  | .error _ => 0

/-- A deterministic model answering sixty characters to short-tier bounds
and fifty characters otherwise. -/
def mBad : Bounds → List Char → Except Unit (List Char) :=
  fun b _ =>
    if b.maxLen = 60 then .ok (List.replicate 60 'z') else .ok (List.replicate 50 'z')

/-- C5 counterexample: with the fixed deterministic model `mBad` and a
fixed input, the medium summary is strictly shorter than the short one, so
summary lengths are not non-decreasing across the tier order. -/
theorem tier_monotonicity_cex :
    outLen mBad Tier.medium 100 3 tSample < outLen mBad Tier.short 100 3 tSample := by
  decide

/-- C5 (amended): the tier bounds are strictly increasing in maxima and
minima; and for a model whose successful outputs respect the requested
bounds and never fail on the normalized input, a valid input fitting a
single chunk yields summary lengths that are non-decreasing across the
tier order. -/
theorem tier_monotonicity_amended {ε : Type} (M : Bounds → List Char → Except ε (List Char))
    (m fuel : ℕ) (text : List Char)
    (hv : 50 ≤ (trim text).length) (hm : text.length ≤ m)
    (hresp : ∀ (tier : Tier) (p : List Char),
      M (boundsFor tier) (normalize text) = .ok p →
        (boundsFor tier).minLen ≤ p.length ∧ p.length ≤ (boundsFor tier).maxLen)
    (htot : ∀ tier : Tier, ∃ p, M (boundsFor tier) (normalize text) = .ok p) :
    (outLen M Tier.short m fuel text ≤ outLen M Tier.medium m fuel text ∧
      outLen M Tier.medium m fuel text ≤ outLen M Tier.long m fuel text) ∧
      ((boundsFor Tier.short).maxLen < (boundsFor Tier.medium).maxLen ∧
        (boundsFor Tier.medium).maxLen < (boundsFor Tier.long).maxLen ∧
        (boundsFor Tier.short).minLen < (boundsFor Tier.medium).minLen ∧
        (boundsFor Tier.medium).minLen < (boundsFor Tier.long).minLen) := by
  have key : ∀ tier : Tier, ∃ p : List Char,
      M (boundsFor tier) (normalize text) = .ok p ∧
        outLen M tier m fuel text = p.length := by
    intro tier
    obtain ⟨p, hp⟩ := htot tier
    refine ⟨p, hp, ?_⟩
    rw [outLen, summarize_one_chunk M tier m fuel text p hv hm hp]
  obtain ⟨ps, hps, hlens⟩ := key Tier.short
  obtain ⟨pm, hpm, hlenm⟩ := key Tier.medium
  obtain ⟨pl, hpl, hlenl⟩ := key Tier.long
  have hs2 := (hresp Tier.short ps hps).2
  have hm1 := (hresp Tier.medium pm hpm).1
  have hm2 := (hresp Tier.medium pm hpm).2
  have hl1 := (hresp Tier.long pl hpl).1
  simp only [boundsFor] at hs2 hm1 hm2 hl1
  refine ⟨⟨?_, ?_⟩, by decide, by decide, by decide, by decide⟩
  · rw [hlens, hlenm]
    omega
  · rw [hlenm, hlenl]
    omega

/-- A deterministic model answering exactly the requested minimum number
of characters. -/
def mResp : Bounds → List Char → Except Unit (List Char) :=
  fun b _ => .ok (List.replicate b.minLen 'z')

/-- Witness for the amended C5 on a one-chunk input with a
bounds-respecting model. -/
theorem tier_monotonicity_amended_witness :
    (50 ≤ (trim tSample).length) ∧ (tSample.length ≤ 100) ∧
      ((outLen mResp Tier.short 100 3 tSample ≤ outLen mResp Tier.medium 100 3 tSample ∧
        outLen mResp Tier.medium 100 3 tSample ≤ outLen mResp Tier.long 100 3 tSample) ∧
        ((boundsFor Tier.short).maxLen < (boundsFor Tier.medium).maxLen ∧
          (boundsFor Tier.medium).maxLen < (boundsFor Tier.long).maxLen ∧
          (boundsFor Tier.short).minLen < (boundsFor Tier.medium).minLen ∧
          (boundsFor Tier.medium).minLen < (boundsFor Tier.long).minLen)) :=
  ⟨by decide, by decide,
    tier_monotonicity_amended mResp 100 3 tSample (by decide) (by decide)
      (by
        intro tier p h
        simp only [mResp, Except.ok.injEq] at h
        cases tier <;> simp [boundsFor, ← h])
      (fun tier => ⟨List.replicate (boundsFor tier).minLen 'z', rfl⟩)⟩

end Summarizer
